import Mathlib

/-!
Shallow embedding of the order-verification helpers of
`cypress/pages/InventoryPage.js`:

* `verifyPricesSortedAscending` (lines 103–111): maps each captured price
  text through `parseFloat(el.innerText.replace("$", ""))`, sorts a spread
  copy with the comparator `(a, b) => a - b`, and asserts
  `expect(prices).to.deep.equal(sortedPrices)`.
* `verifyNamesSortedDescending` (lines 113–119): captures the name texts,
  builds `[...names].sort().reverse()`, and asserts deep equality.

Modelling choices, recorded once here:

* A captured text is its list of Unicode code points (`Str`).  JS strings
  are UTF-16 sequences; on Basic-Multilingual-Plane text (all inputs this
  page produces) code-unit order and code-point order coincide, so the
  embedding works at code-point granularity.
* A JS number is `JNum`: `NaN`, an infinity, or a finite value.  Finite
  values are carried exactly as rationals (`ℚ`): every decimal literal
  denotes a rational, decimal-to-double rounding is monotone, and no claim
  under study depends on binary rounding of specific literals.
* `Array.prototype.sort(comparefn)` is a stable sort (required since
  ES2019), modelled by stable insertion; for a consistent comparator every
  stable sort returns the same list, and for an inconsistent one (`NaN`
  present) ECMAScript leaves the order implementation-defined.
* `expect(xs).to.deep.equal(ys)` on two arrays of primitives passes exactly
  when the element lists are equal (chai's deep-eql compares primitives
  with `===` except that `NaN` equals `NaN`; on `JNum` both coincide with
  structural equality, `+0`/`-0` being one rational).
* In-place mutation (`.sort()`, `.reverse()`) is modelled by a store of
  arrays addressed by references (`Heap`), used to state the frame and
  purity claims.
-/

/-- Rendered text captured from the page (`el.innerText`), as its list of
Unicode code points. -/
abbrev Str := List Char

/-- A JS number as produced by `parseFloat`. -/
inductive JNum where
  | nan
  | posInf
  | negInf
  | num (q : ℚ)
  deriving DecidableEq

/-- ES `SortCompare` with the comparator `(a, b) => a - b` of
`verifyPricesSortedAscending`, reduced to the question the sort asks: is
the comparator value ≤ 0?  A `NaN` comparator result counts as `+0` (so
`true`): this covers every case where either operand is `NaN` and the case
`Infinity - Infinity`.  `Infinity - x = Infinity > 0` for finite or
negative-infinite `x`, symmetrically for `-Infinity`; for finite operands
`a - b ≤ 0` is `a ≤ b`. -/
def jle (a b : JNum) : Bool :=
  match a, b with
  | .nan, _ => true
  | _, .nan => true
  | .posInf, .posInf => true
  | .posInf, _ => false
  | .negInf, _ => true
  | .num _, .posInf => true
  | .num _, .negInf => false
  | .num x, .num y => decide (x ≤ y)

/-- Whitespace skipped by `parseFloat` (the ASCII white space and line
terminators, NBSP and the BOM; other Unicode spaces do not occur in the
inputs this page produces). -/
def isJsSpace (c : Char) : Bool :=
  c = ' ' || c = '\t' || c = '\n' || c = '\r' || c.toNat = 11 || c.toNat = 12 ||
  c.toNat = 0xa0 || c.toNat = 0xfeff

/-- Value of a digit list read in base 10, most significant digit first. -/
def digitsToNat (ds : List Char) : Nat :=
  ds.foldl (fun n c => 10 * n + (c.toNat - 48)) 0

/-- Longest prefix of `l` that is an unsigned decimal mantissa
(`Digits ['.' Digits?]` or `'.' Digits`).  On success returns the mantissa
digits (integer and fraction parts concatenated) as a number, the count of
fraction digits, and the unconsumed remainder. -/
def parseMantissa (l : List Char) : Option (Nat × Nat × List Char) :=
  let ds := l.takeWhile Char.isDigit
  let r1 := l.dropWhile Char.isDigit
  match r1 with
  | '.' :: r2 =>
    let fs := r2.takeWhile Char.isDigit
    if ds.isEmpty && fs.isEmpty then none
    else some (digitsToNat (ds ++ fs), fs.length, r2.dropWhile Char.isDigit)
  | _ => if ds.isEmpty then none else some (digitsToNat ds, 0, r1)

/-- Exponent part (`[eE] [+-]? Digits`) at the head of `l`.  Under the
longest-valid-prefix rule it contributes `0` when absent or when no digit
follows the marker and optional sign. -/
def parseExp (l : List Char) : ℤ :=
  match l with
  | c :: rest =>
    if c = 'e' || c = 'E' then
      match rest with
      | '+' :: r2 =>
        let es := r2.takeWhile Char.isDigit
        if es.isEmpty then 0 else (digitsToNat es : ℤ)
      | '-' :: r2 =>
        let es := r2.takeWhile Char.isDigit
        if es.isEmpty then 0 else -(digitsToNat es : ℤ)
      | _ =>
        let es := rest.takeWhile Char.isDigit
        if es.isEmpty then 0 else (digitsToNat es : ℤ)
    else 0
  | [] => 0

/-- The rational denoted by signed mantissa `m` with `f` fraction digits
and decimal exponent `e`, that is `m * 10 ^ (e - f)`. -/
def decValue (m : ℤ) (f : Nat) (e : ℤ) : ℚ :=
  if 0 ≤ e - (f : ℤ) then mkRat (m * (10 : ℤ) ^ (e - (f : ℤ)).toNat) 1
  else mkRat m ((10 : ℕ) ^ ((f : ℤ) - e).toNat)

/-- ECMAScript `parseFloat`: skip leading whitespace, read an optional
sign, then the longest prefix that is `Infinity` or a decimal literal;
`NaN` when no such prefix exists.  Unconsumed trailing characters are
ignored. -/
def parseFloat (s : Str) : JNum :=
  let t := s.dropWhile isJsSpace
  let p : Bool × Str :=
    match t with
    | '-' :: r => (true, r)
    | '+' :: r => (false, r)
    | _ => (false, t)
  let neg := p.1
  let t2 := p.2
  if t2.take 8 = "Infinity".data then (if neg then .negInf else .posInf)
  else
    match parseMantissa t2 with
    | none => .nan
    | some (m, f, rest) =>
      .num (decValue (if neg then -(m : ℤ) else (m : ℤ)) f (parseExp rest))

/-- JS `s.replace("$", "")` with a string pattern replaces only the first
occurrence: drop the first `'$'` of `s`, wherever it occurs. -/
def replaceFirstDollar : Str → Str
  | [] => []
  | c :: cs => if c = '$' then cs else c :: replaceFirstDollar cs

/-- The per-element conversion of `verifyPricesSortedAscending`:
`parseFloat(el.innerText.replace("$", ""))`. -/
def parsePrice (s : Str) : JNum :=
  parseFloat (replaceFirstDollar s)

/-- Strict string comparison `x < y` as used by the default `sort()`
comparator: lexicographic, a proper head segment preceding the longer
string, characters compared by code point. -/
def strLt : Str → Str → Bool
  | [], [] => false
  | [], _ :: _ => true
  | _ :: _, [] => false
  | a :: as, b :: bs => if a = b then strLt as bs else decide (a < b)

/-- The question the default `sort()` asks of ES `SortCompare` on strings:
comparator value ≤ 0, that is `¬ (y < x)`. -/
def strLe (a b : Str) : Bool :=
  !strLt b a

/-- Stable-insertion step: place `a` after every element `b` of the
already-processed list satisfying `le b a`, so that equal elements keep
their original relative order. -/
def insertLe (le : α → α → Bool) (a : α) : List α → List α
  | [] => [a]
  | b :: bs => if le b a then b :: insertLe le a bs else a :: b :: bs

/-- `Array.prototype.sort(comparefn)` as a stable sort driven by the
comparator, modelled by stable insertion. -/
def jsSortBy (le : α → α → Bool) (l : List α) : List α :=
  l.foldl (fun acc a => insertLe le a acc) []

/-- Outcome of the final `expect(xs).to.deep.equal(ys)`: the assertion
passes (`sorted`) or fails (`notSorted`), the failing case recording the
first differing index and both values there, which is the content of the
resulting diagnostic. -/
inductive Verdict (α : Type) where
  | sorted
  | notSorted (i : Nat) (obs exp : α)
  deriving DecidableEq

/-- First index at which two lists differ, with the two values there;
`none` when no position disagrees. -/
def firstMismatch [DecidableEq α] : List α → List α → Option (Nat × α × α)
  | a :: as, b :: bs =>
    if a = b then (firstMismatch as bs).map (fun p => (p.1 + 1, p.2)) else some (0, a, b)
  | _, _ => none

/-- Verdict of the element-wise comparison of two equal-length lists. -/
def verdictOf [DecidableEq α] (obs exp : List α) : Verdict α :=
  match firstMismatch obs exp with
  | none => .sorted
  | some (i, x, y) => .notSorted i x y

/-- `InventoryPage.verifyPricesSortedAscending`, as a function of the
captured `innerText`s: parse each element, compare against a sorted copy. -/
def verifyPricesSortedAscending (obs : List Str) : Verdict JNum :=
  let prices := obs.map parsePrice
  let sortedPrices := jsSortBy jle prices
  verdictOf prices sortedPrices

/-- `InventoryPage.verifyNamesSortedDescending`, as a function of the
captured `innerText`s: compare against the reversal of a sorted copy. -/
def verifyNamesSortedDescending (obs : List Str) : Verdict Str :=
  let names := obs
  let sortedNames := (jsSortBy strLe names).reverse
  verdictOf names sortedNames

/-- The direction half of a SortSpec. -/
inductive SortDir where
  | ascending
  | descending

/-- The expected comparison sequence in the code's pattern, generalised
over direction: ascending is the sorted copy (`[...xs].sort(cmp)`),
descending its reversal (`[...xs].sort(cmp).reverse()`). -/
def expectedSeq (le : α → α → Bool) : SortDir → List α → List α
  | .ascending, l => jsSortBy le l
  | .descending, l => (jsSortBy le l).reverse

/-- The price-key verifier for either direction, in the code's pattern. -/
def verifyPrices (dir : SortDir) (obs : List Str) : Verdict JNum :=
  let prices := obs.map parsePrice
  verdictOf prices (expectedSeq jle dir prices)

/-- The name-key verifier for either direction, in the code's pattern. -/
def verifyNames (dir : SortDir) (obs : List Str) : Verdict Str :=
  verdictOf obs (expectedSeq strLe dir obs)

theorem verifyPrices_ascending_eq :
    verifyPrices SortDir.ascending = verifyPricesSortedAscending := rfl

theorem verifyNames_descending_eq :
    verifyNames SortDir.descending = verifyNamesSortedDescending := rfl

/-- A store of JS array objects, addressed by references (indices).  Models
which array object a spread `[...xs]` copies and which one `.sort()` /
`.reverse()` mutate in place. -/
abbrev Heap (α : Type) := List (List α)

/-- Allocate a fresh array holding `a`; returns the store and the new
reference. -/
def halloc (h : Heap α) (a : List α) : Heap α × Nat := (h ++ [a], h.length)

/-- Contents of the array at reference `r` (empty for a dangling
reference). -/
def hget (h : Heap α) (r : Nat) : List α := h.getD r []

/-- Overwrite the array at reference `r` in place. -/
def hset (h : Heap α) (r : Nat) (a : List α) : Heap α := h.set r a

/-- `verifyPricesSortedAscending` with its array allocations and in-place
mutation made explicit: `[...$prices].map(...)` allocates `prices`,
`[...prices]` allocates a separate copy, `.sort((a, b) => a - b)` mutates
that copy in place, and the assertion compares the two arrays.  Returns the
final store, the references of `prices` and `sortedPrices`, and the
verdict. -/
def verifyPricesRun (h : Heap JNum) (obs : List Str) :
    Heap JNum × Nat × Nat × Verdict JNum :=
  let a1 := halloc h (obs.map parsePrice)
  let a2 := halloc a1.1 (hget a1.1 a1.2)
  let h3 := hset a2.1 a2.2 (jsSortBy jle (hget a2.1 a2.2))
  (h3, a1.2, a2.2, verdictOf (hget h3 a1.2) (hget h3 a2.2))

/-- `verifyNamesSortedDescending` with allocations and in-place mutation
made explicit: `names` is allocated from the captured texts, `[...names]`
allocates a separate copy, and `.sort()` then `.reverse()` mutate that copy
in place. -/
def verifyNamesRun (h : Heap Str) (obs : List Str) :
    Heap Str × Nat × Nat × Verdict Str :=
  let a1 := halloc h obs
  let a2 := halloc a1.1 (hget a1.1 a1.2)
  let h3 := hset a2.1 a2.2 (jsSortBy strLe (hget a2.1 a2.2))
  let h4 := hset h3 a2.2 (hget h3 a2.2).reverse
  (h4, a1.2, a2.2, verdictOf (hget h4 a1.2) (hget h4 a2.2))

theorem hget_append1 (h : Heap α) (a : List α) : hget (h ++ [a]) h.length = a := by
  induction h with
  | nil => rfl
  | cons x t _ => simp [hget, List.length_cons]

theorem hget_append2_fst (h : Heap α) (a b : List α) :
    hget (h ++ [a, b]) h.length = a := by
  induction h with
  | nil => rfl
  | cons x t ih => simpa [hget, List.length_cons] using ih

theorem hget_append2_snd (h : Heap α) (a b : List α) :
    hget (h ++ [a, b]) (h.length + 1) = b := by
  induction h with
  | nil => rfl
  | cons x t ih => simpa [hget, List.length_cons] using ih

theorem hget_append2_other (h : Heap α) (a b : List α) (r : Nat)
    (h1 : r ≠ h.length) (h2 : r ≠ h.length + 1) :
    hget (h ++ [a, b]) r = hget h r := by
  induction h generalizing r with
  | nil =>
    match r with
    | 0 => exact absurd rfl h1
    | 1 => exact absurd rfl h2
    | r + 2 => rfl
  | cons x t ih =>
    match r with
    | 0 => rfl
    | r + 1 =>
      have g1 : r ≠ t.length := fun hh => h1 (by simp [hh])
      have g2 : r ≠ t.length + 1 := fun hh => h2 (by simp [hh])
      simpa [hget] using ih r g1 g2

theorem set_append2_snd (h : Heap α) (a b x : List α) :
    (h ++ [a, b]).set (h.length + 1) x = h ++ [a, x] := by
  induction h with
  | nil => rfl
  | cons y t ih => simp [List.length_cons, ih]

/-- Closed form of the instrumented price verifier: it allocates exactly
the parsed array and its sorted copy, and returns the pure verdict. -/
theorem verifyPricesRun_eq (h : Heap JNum) (obs : List Str) :
    verifyPricesRun h obs =
      (h ++ [obs.map parsePrice, jsSortBy jle (obs.map parsePrice)],
        h.length, h.length + 1, verifyPricesSortedAscending obs) := by
  have e1 : hget (h ++ [obs.map parsePrice]) h.length = obs.map parsePrice :=
    hget_append1 h _
  have e2 : h ++ [obs.map parsePrice] ++ [obs.map parsePrice] =
      h ++ [obs.map parsePrice, obs.map parsePrice] := by simp
  simp only [verifyPricesRun, halloc, hset, e1, List.length_append,
    List.length_singleton, e2, set_append2_snd h, hget_append2_snd h,
    hget_append2_fst h, verifyPricesSortedAscending]

/-- Closed form of the instrumented name verifier. -/
theorem verifyNamesRun_eq (h : Heap Str) (obs : List Str) :
    verifyNamesRun h obs =
      (h ++ [obs, (jsSortBy strLe obs).reverse], h.length, h.length + 1,
        verifyNamesSortedDescending obs) := by
  have e1 : hget (h ++ [obs]) h.length = obs := hget_append1 h _
  have e2 : h ++ [obs] ++ [obs] = h ++ [obs, obs] := by simp
  simp only [verifyNamesRun, halloc, hset, e1, List.length_append,
    List.length_singleton, e2, set_append2_snd h, hget_append2_snd h,
    hget_append2_fst h, verifyNamesSortedDescending]

theorem mem_insertLe (le : α → α → Bool) (a x : α) (l : List α) :
    x ∈ insertLe le a l ↔ x = a ∨ x ∈ l := by
  induction l with
  | nil => simp [insertLe]
  | cons b bs ih =>
    by_cases h : le b a = true
    · rw [insertLe, if_pos h]
      simp only [List.mem_cons, ih]
      tauto
    · rw [insertLe, if_neg h]
      simp only [List.mem_cons]

theorem insertLe_perm (le : α → α → Bool) (a : α) (l : List α) :
    List.Perm (insertLe le a l) (a :: l) := by
  induction l with
  | nil => exact List.Perm.refl _
  | cons b bs ih =>
    by_cases h : le b a = true
    · rw [insertLe, if_pos h]
      exact (ih.cons b).trans (List.Perm.swap a b bs)
    · rw [insertLe, if_neg h]

theorem jsSortBy_perm (le : α → α → Bool) (l : List α) :
    List.Perm (jsSortBy le l) l := by
  suffices h : ∀ acc : List α,
      List.Perm (l.foldl (fun acc a => insertLe le a acc) acc) (acc ++ l) by
    simpa [jsSortBy] using h []
  induction l with
  | nil => intro acc; simp
  | cons a t ih =>
    intro acc
    simp only [List.foldl_cons]
    exact (ih (insertLe le a acc)).trans
      (((insertLe_perm le a acc).append_right t).trans List.perm_middle.symm)

theorem jsSortBy_length (le : α → α → Bool) (l : List α) :
    (jsSortBy le l).length = l.length :=
  (jsSortBy_perm le l).length_eq

theorem insertLe_pairwise (le : α → α → Bool)
    (htrans : ∀ a b c, le a b = true → le b c = true → le a c = true)
    (htot : ∀ a b, le a b = true ∨ le b a = true)
    (a : α) (l : List α) (hl : l.Pairwise (fun x y => le x y = true)) :
    (insertLe le a l).Pairwise (fun x y => le x y = true) := by
  induction l with
  | nil => simp [insertLe]
  | cons b bs ih =>
    rcases List.pairwise_cons.mp hl with ⟨hb, hbs⟩
    by_cases h : le b a = true
    · rw [insertLe, if_pos h]
      refine List.pairwise_cons.mpr ⟨?_, ih hbs⟩
      intro x hx
      rcases (mem_insertLe le a x bs).mp hx with rfl | hx
      · exact h
      · exact hb x hx
    · rw [insertLe, if_neg h]
      have hab : le a b = true := (htot a b).resolve_right h
      refine List.pairwise_cons.mpr ⟨?_, hl⟩
      intro x hx
      rcases List.mem_cons.mp hx with rfl | hx
      · exact hab
      · exact htrans a b x hab (hb x hx)

theorem jsSortBy_pairwise (le : α → α → Bool)
    (htrans : ∀ a b c, le a b = true → le b c = true → le a c = true)
    (htot : ∀ a b, le a b = true ∨ le b a = true) (l : List α) :
    (jsSortBy le l).Pairwise (fun x y => le x y = true) := by
  suffices h : ∀ acc : List α, acc.Pairwise (fun x y => le x y = true) →
      (l.foldl (fun acc a => insertLe le a acc) acc).Pairwise
        (fun x y => le x y = true) by
    exact h [] List.Pairwise.nil
  induction l with
  | nil => intro acc hacc; simpa using hacc
  | cons a t ih =>
    intro acc hacc
    simp only [List.foldl_cons]
    exact ih _ (insertLe_pairwise le htrans htot a acc hacc)

/-- A stable sort's output is the unique sorted arrangement: for an
antisymmetric total transitive comparator, `jsSortBy le l` equals any
`le`-sorted list that `l` permutes to. -/
theorem jsSortBy_eq_of_perm_pairwise (le : α → α → Bool)
    (htrans : ∀ a b c, le a b = true → le b c = true → le a c = true)
    (htot : ∀ a b, le a b = true ∨ le b a = true)
    (hanti : ∀ a b, le a b = true → le b a = true → a = b)
    (l m : List α) (hp : List.Perm l m)
    (hm : m.Pairwise (fun x y => le x y = true)) :
    jsSortBy le l = m := by
  haveI : IsAntisymm α (fun x y => le x y = true) := ⟨hanti⟩
  exact List.eq_of_perm_of_sorted ((jsSortBy_perm le l).trans hp)
    (jsSortBy_pairwise le htrans htot l) hm

theorem jsSortBy_eq_self (le : α → α → Bool)
    (htrans : ∀ a b c, le a b = true → le b c = true → le a c = true)
    (htot : ∀ a b, le a b = true ∨ le b a = true)
    (hanti : ∀ a b, le a b = true → le b a = true → a = b)
    (l : List α) (hl : l.Pairwise (fun x y => le x y = true)) :
    jsSortBy le l = l :=
  jsSortBy_eq_of_perm_pairwise le htrans htot hanti l l (List.Perm.refl l) hl

theorem insertLe_map (le : α → α → Bool) (le' : β → β → Bool) (f : α → β)
    (hf : ∀ a b, le' (f a) (f b) = le a b) (a : α) (l : List α) :
    insertLe le' (f a) (l.map f) = (insertLe le a l).map f := by
  induction l with
  | nil => rfl
  | cons b bs ih =>
    simp only [List.map_cons, insertLe, hf]
    by_cases h : le b a = true
    · rw [if_pos h, if_pos h, ih, List.map_cons]
    · rw [if_neg h, if_neg h, List.map_cons, List.map_cons]

theorem jsSortBy_map (le : α → α → Bool) (le' : β → β → Bool) (f : α → β)
    (hf : ∀ a b, le' (f a) (f b) = le a b) (l : List α) :
    jsSortBy le' (l.map f) = (jsSortBy le l).map f := by
  suffices h : ∀ acc : List α,
      (l.map f).foldl (fun acc b => insertLe le' b acc) (acc.map f) =
        (l.foldl (fun acc a => insertLe le a acc) acc).map f by
    simpa [jsSortBy] using h []
  induction l with
  | nil => intro acc; simp
  | cons a t ih =>
    intro acc
    simp only [List.map_cons, List.foldl_cons]
    rw [insertLe_map le le' f hf a acc]
    exact ih (insertLe le a acc)

theorem firstMismatch_self [DecidableEq α] (l : List α) : firstMismatch l l = none := by
  induction l with
  | nil => rfl
  | cons a t ih => simp [firstMismatch, ih]

theorem verdictOf_self [DecidableEq α] (l : List α) : verdictOf l l = Verdict.sorted := by
  simp [verdictOf, firstMismatch_self]

theorem firstMismatch_none_iff [DecidableEq α] (a : List α) :
    ∀ b : List α, a.length = b.length → (firstMismatch a b = none ↔ a = b) := by
  induction a with
  | nil =>
    intro b hb
    cases b with
    | nil => simp [firstMismatch]
    | cons c cs => simp at hb
  | cons x xs ih =>
    intro b hb
    cases b with
    | nil => simp at hb
    | cons y ys =>
      by_cases hxy : x = y
      · subst hxy
        have hlen : xs.length = ys.length := by simpa using hb
        simp [firstMismatch, Option.map_eq_none', ih ys hlen]
      · simp [firstMismatch, hxy]

theorem firstMismatch_spec [DecidableEq α] (a : List α) :
    ∀ (b : List α) (i : Nat) (x y : α), firstMismatch a b = some (i, x, y) →
      a[i]? = some x ∧ b[i]? = some y ∧ x ≠ y ∧ ∀ j, j < i → a[j]? = b[j]? := by
  induction a with
  | nil =>
    intro b i x y h
    cases b <;> simp [firstMismatch] at h
  | cons c cs ih =>
    intro b i x y h
    cases b with
    | nil => simp [firstMismatch] at h
    | cons d ds =>
      by_cases hcd : c = d
      · subst hcd
        rw [firstMismatch, if_pos rfl] at h
        rcases Option.map_eq_some'.mp h with ⟨⟨i2, x2, y2⟩, hfm, heq⟩
        obtain ⟨rfl, rfl, rfl⟩ : i2 + 1 = i ∧ x2 = x ∧ y2 = y := by
          simpa [Prod.ext_iff] using heq
        rcases ih ds i2 x2 y2 hfm with ⟨h1, h2, h3, h4⟩
        refine ⟨by simpa using h1, by simpa using h2, h3, ?_⟩
        intro j hj
        cases j with
        | zero => simp
        | succ j' => simpa using h4 j' (Nat.lt_of_succ_lt_succ hj)
      · rw [firstMismatch, if_neg hcd] at h
        cases h
        exact ⟨by simp, by simp, hcd, fun j hj => absurd hj (Nat.not_lt_zero j)⟩

theorem verdictOf_sorted_iff [DecidableEq α] (a b : List α)
    (hlen : a.length = b.length) : verdictOf a b = Verdict.sorted ↔ a = b := by
  constructor
  · intro h
    rcases hm : firstMismatch a b with _ | ⟨⟨i, x, y⟩⟩
    · exact (firstMismatch_none_iff a b hlen).mp hm
    · rw [verdictOf, hm] at h
      exact absurd h (by simp)
  · intro h
    subst h
    exact verdictOf_self a

theorem verdictOf_notSorted [DecidableEq α] (a b : List α) (i : Nat) (x y : α)
    (h : verdictOf a b = Verdict.notSorted i x y) :
    a[i]? = some x ∧ b[i]? = some y ∧ x ≠ y ∧ ∀ j, j < i → a[j]? = b[j]? := by
  rcases hm : firstMismatch a b with _ | ⟨⟨i', x', y'⟩⟩
  · rw [verdictOf, hm] at h
    exact absurd h (by simp)
  · rw [verdictOf, hm] at h
    injection h with h1 h2 h3
    subst h1
    subst h2
    subst h3
    exact firstMismatch_spec a b _ _ _ hm

theorem strLt_nil_right (a : Str) : strLt a [] = false := by
  cases a <;> rfl

theorem strLt_cons_self (a : Char) (as bs : Str) :
    strLt (a :: as) (a :: bs) = strLt as bs := by
  simp [strLt]

theorem strLt_cons_ne (a b : Char) (as bs : Str) (h : ¬ a = b) :
    strLt (a :: as) (b :: bs) = decide (a < b) := by
  simp [strLt, h]

theorem strLt_irrefl (a : Str) : strLt a a = false := by
  induction a with
  | nil => rfl
  | cons c cs ih => rw [strLt_cons_self]; exact ih

theorem strLt_asymm : ∀ a b : Str, strLt a b = true → strLt b a = false := by
  intro a
  induction a with
  | nil => intro b hb; exact strLt_nil_right b
  | cons c cs ih =>
    intro b hb
    cases b with
    | nil => rw [strLt_nil_right] at hb; exact absurd hb (by simp)
    | cons d ds =>
      by_cases hcd : c = d
      · subst hcd
        rw [strLt_cons_self] at hb ⊢
        exact ih ds hb
      · rw [strLt_cons_ne c d cs ds hcd] at hb
        rw [strLt_cons_ne d c ds cs (Ne.symm hcd)]
        simp only [decide_eq_false_iff_not]
        exact lt_asymm (of_decide_eq_true hb)

theorem strLt_connex : ∀ a b : Str, strLt a b = false → strLt b a = false → a = b := by
  intro a
  induction a with
  | nil =>
    intro b h1 h2
    cases b with
    | nil => rfl
    | cons d ds => exact absurd h1 (by simp [strLt])
  | cons c cs ih =>
    intro b h1 h2
    cases b with
    | nil => exact absurd h2 (by simp [strLt])
    | cons d ds =>
      by_cases hcd : c = d
      · subst hcd
        rw [strLt_cons_self] at h1 h2
        rw [ih ds h1 h2]
      · rw [strLt_cons_ne c d cs ds hcd] at h1
        rw [strLt_cons_ne d c ds cs (Ne.symm hcd)] at h2
        have g1 : ¬ c < d := by simpa using h1
        have g2 : ¬ d < c := by simpa using h2
        exact absurd (le_antisymm (le_of_not_lt g2) (le_of_not_lt g1)) hcd

theorem strLt_trans : ∀ a b c : Str, strLt a b = true → strLt b c = true → strLt a c = true := by
  intro a
  induction a with
  | nil =>
    intro b c h1 h2
    cases c with
    | nil => rw [strLt_nil_right] at h2; exact absurd h2 (by simp)
    | cons e es => rfl
  | cons x xs ih =>
    intro b c h1 h2
    cases b with
    | nil => rw [strLt_nil_right] at h1; exact absurd h1 (by simp)
    | cons y ys =>
      cases c with
      | nil => rw [strLt_nil_right] at h2; exact absurd h2 (by simp)
      | cons z zs =>
        by_cases hxy : x = y
        · subst hxy
          rw [strLt_cons_self] at h1
          by_cases hxz : x = z
          · subst hxz
            rw [strLt_cons_self] at h2 ⊢
            exact ih ys zs h1 h2
          · rw [strLt_cons_ne x z ys zs hxz] at h2
            rw [strLt_cons_ne x z xs zs hxz]
            exact h2
        · rw [strLt_cons_ne x y xs ys hxy] at h1
          have hxylt : x < y := of_decide_eq_true h1
          by_cases hyz : y = z
          · subst hyz
            rw [strLt_cons_ne x y xs zs hxy]
            exact decide_eq_true hxylt
          · rw [strLt_cons_ne y z ys zs hyz] at h2
            have hxz : x < z := lt_trans hxylt (of_decide_eq_true h2)
            rw [strLt_cons_ne x z xs zs (ne_of_lt hxz)]
            exact decide_eq_true hxz

theorem strLe_iff (a b : Str) : strLe a b = true ↔ strLt b a = false := by
  unfold strLe
  cases strLt b a <;> simp

theorem strLe_total (a b : Str) : strLe a b = true ∨ strLe b a = true := by
  cases hb : strLt b a with
  | false => exact Or.inl ((strLe_iff a b).mpr hb)
  | true => exact Or.inr ((strLe_iff b a).mpr (strLt_asymm b a hb))

theorem strLe_trans (a b c : Str) (h1 : strLe a b = true) (h2 : strLe b c = true) :
    strLe a c = true := by
  rw [strLe_iff] at h1 h2 ⊢
  cases hab : strLt a b with
  | false =>
    have hab2 : a = b := strLt_connex a b hab h1
    subst hab2
    exact h2
  | true =>
    cases hbc : strLt b c with
    | false =>
      have hbc2 : b = c := strLt_connex b c hbc h2
      subst hbc2
      exact strLt_asymm a b hab
    | true => exact strLt_asymm a c (strLt_trans a b c hab hbc)

theorem strLe_antisymm (a b : Str) (h1 : strLe a b = true) (h2 : strLe b a = true) :
    a = b := by
  rw [strLe_iff] at h1 h2
  exact strLt_connex a b h2 h1

/-- Case-sensitive code-point lexicographic order, defined the way the
spec words it: the empty string precedes any nonempty one, a smaller code
point at the first position decides, and equal heads defer to the tails.
Used to check that the order the code's `sort()` applies refines this
specification. -/
inductive lexLtSpec : Str → Str → Prop
  | nil (b : Char) (bs : Str) : lexLtSpec [] (b :: bs)
  | head (a b : Char) (as bs : Str) : a < b → lexLtSpec (a :: as) (b :: bs)
  | tail (a : Char) (as bs : Str) : lexLtSpec as bs → lexLtSpec (a :: as) (a :: bs)

theorem strLt_iff_lexLtSpec : ∀ a b : Str, strLt a b = true ↔ lexLtSpec a b := by
  intro a
  induction a with
  | nil =>
    intro b
    cases b with
    | nil =>
      constructor
      · intro h; exact absurd h (by simp [strLt])
      · intro h; cases h
    | cons d ds =>
      constructor
      · intro h; exact lexLtSpec.nil d ds
      · intro h; rfl
  | cons x xs ih =>
    intro b
    cases b with
    | nil =>
      constructor
      · intro h; rw [strLt_nil_right] at h; exact absurd h (by simp)
      · intro h; cases h
    | cons y ys =>
      by_cases hxy : x = y
      · subst hxy
        rw [strLt_cons_self]
        constructor
        · intro h; exact lexLtSpec.tail x xs ys ((ih ys).mp h)
        · intro h
          cases h with
          | head _ _ _ _ hlt => exact absurd hlt (lt_irrefl x)
          | tail _ _ _ htl => exact (ih ys).mpr htl
      · rw [strLt_cons_ne x y xs ys hxy]
        constructor
        · intro h; exact lexLtSpec.head x y xs ys (of_decide_eq_true h)
        · intro h
          cases h with
          | head _ _ _ _ hlt => exact decide_eq_true hlt
          | tail _ _ _ htl => exact absurd rfl hxy

theorem strLe_iff_lexLeSpec (a b : Str) :
    strLe a b = true ↔ a = b ∨ lexLtSpec a b := by
  rw [strLe_iff]
  constructor
  · intro h
    cases hab : strLt a b with
    | false => exact Or.inl (strLt_connex a b hab h)
    | true => exact Or.inr ((strLt_iff_lexLtSpec a b).mp hab)
  · intro h
    rcases h with rfl | h
    · exact strLt_irrefl a
    · exact strLt_asymm a b ((strLt_iff_lexLtSpec a b).mpr h)

/-- The comparator `jle` restricted to finite values: the rational order. -/
def qle (a b : ℚ) : Bool := decide (a ≤ b)

theorem qle_trans (a b c : ℚ) (h1 : qle a b = true) (h2 : qle b c = true) :
    qle a c = true :=
  decide_eq_true (le_trans (of_decide_eq_true h1) (of_decide_eq_true h2))

theorem qle_total (a b : ℚ) : qle a b = true ∨ qle b a = true :=
  (le_total a b).imp decide_eq_true decide_eq_true

theorem qle_antisymm (a b : ℚ) (h1 : qle a b = true) (h2 : qle b a = true) : a = b :=
  le_antisymm (of_decide_eq_true h1) (of_decide_eq_true h2)

theorem jle_num_eq_qle (a b : ℚ) : jle (JNum.num a) (JNum.num b) = qle a b := rfl

theorem jsSortBy_jle_map (vals : List ℚ) :
    jsSortBy jle (vals.map JNum.num) = (jsSortBy qle vals).map JNum.num :=
  jsSortBy_map qle jle JNum.num jle_num_eq_qle vals

theorem pairwise_qle_of_le (vals : List ℚ) (h : vals.Pairwise (· ≤ ·)) :
    vals.Pairwise (fun a b => qle a b = true) :=
  h.imp fun hab => decide_eq_true hab

theorem qSort_eq_of_perm (l m : List ℚ) (hp : List.Perm l m)
    (hm : m.Pairwise (· ≤ ·)) : jsSortBy qle l = m :=
  jsSortBy_eq_of_perm_pairwise qle qle_trans qle_total qle_antisymm l m hp
    (pairwise_qle_of_le m hm)

theorem strSort_eq_of_perm (l m : List Str) (hp : List.Perm l m)
    (hm : m.Pairwise (fun x y => strLe x y = true)) : jsSortBy strLe l = m :=
  jsSortBy_eq_of_perm_pairwise strLe strLe_trans strLe_total strLe_antisymm l m hp hm

/-- A price sequence whose parses are finite and nondecreasing verifies as
sorted: the stable sort fixes an already-sorted array. -/
theorem verifyPrices_asc_sorted_of (obs : List Str) (vals : List ℚ)
    (hv : obs.map parsePrice = vals.map JNum.num) (h : vals.Pairwise (· ≤ ·)) :
    verifyPricesSortedAscending obs = Verdict.sorted := by
  show verdictOf (obs.map parsePrice) (jsSortBy jle (obs.map parsePrice)) = Verdict.sorted
  rw [hv, jsSortBy_jle_map, qSort_eq_of_perm vals vals (List.Perm.refl vals) h]
  exact verdictOf_self _

theorem verifyPrices_desc_reverse_sorted (obs : List Str) (vals : List ℚ)
    (hv : obs.map parsePrice = vals.map JNum.num) (h : vals.Pairwise (· ≤ ·)) :
    verifyPrices SortDir.descending obs.reverse = Verdict.sorted := by
  show verdictOf (obs.reverse.map parsePrice)
      (jsSortBy jle (obs.reverse.map parsePrice)).reverse = Verdict.sorted
  have h1 : obs.reverse.map parsePrice = vals.reverse.map JNum.num := by
    rw [List.map_reverse, hv, List.map_reverse]
  rw [h1, jsSortBy_jle_map, qSort_eq_of_perm vals.reverse vals (List.reverse_perm vals) h,
    ← List.map_reverse]
  exact verdictOf_self _

/-- The descending name verifier accepts exactly the sequences that are
nonincreasing in the natural string order. -/
theorem verifyNamesSortedDescending_sorted_iff (obs : List Str) :
    verifyNamesSortedDescending obs = Verdict.sorted ↔
      obs.Pairwise (fun x y => strLe y x = true) := by
  have hlen : obs.length = ((jsSortBy strLe obs).reverse).length := by
    simp [jsSortBy_length]
  constructor
  · intro h
    have heq : obs = (jsSortBy strLe obs).reverse :=
      (verdictOf_sorted_iff obs ((jsSortBy strLe obs).reverse) hlen).mp h
    have hs := jsSortBy_pairwise strLe strLe_trans strLe_total obs
    rw [heq]
    exact List.pairwise_reverse.mpr hs
  · intro h
    have heq : jsSortBy strLe obs = obs.reverse :=
      strSort_eq_of_perm obs obs.reverse (List.reverse_perm obs).symm
        (List.pairwise_reverse.mpr h)
    show verdictOf obs (jsSortBy strLe obs).reverse = Verdict.sorted
    rw [heq, List.reverse_reverse]
    exact verdictOf_self obs

theorem verifyNames_asc_sorted_of (obs : List Str)
    (h : obs.Pairwise (fun x y => strLe x y = true)) :
    verifyNames SortDir.ascending obs = Verdict.sorted := by
  show verdictOf obs (jsSortBy strLe obs) = Verdict.sorted
  rw [jsSortBy_eq_self strLe strLe_trans strLe_total strLe_antisymm obs h]
  exact verdictOf_self obs

theorem verifyNames_desc_reverse_sorted (obs : List Str)
    (h : obs.Pairwise (fun x y => strLe x y = true)) :
    verifyNames SortDir.descending obs.reverse = Verdict.sorted := by
  show verdictOf obs.reverse (jsSortBy strLe obs.reverse).reverse = Verdict.sorted
  rw [strSort_eq_of_perm obs.reverse obs (List.reverse_perm obs) h]
  exact verdictOf_self _

/-- Scenario A of the spec: prices captured out of order. -/
def scenarioA : List Str := ["$10.00".data, "$25.50".data, "$5.00".data]

/-- Scenario B of the spec: prices captured in ascending order. -/
def scenarioB : List Str := ["$5.00".data, "$10.00".data, "$25.50".data]

/-- Scenario C of the spec: names captured in descending order. -/
def scenarioC : List Str := ["Zebra".data, "Monkey".data, "Apple".data]

/-- Scenario D of the spec: a malformed price among valid ones. -/
def scenarioD : List Str := ["$5.00".data, "abc".data, "$25.50".data]

/-- C1, counterexample: the claim says an unparseable element such as
`"abc"` makes price verification fail with a `ParseError`; in the code
`parseFloat("abc")` is `NaN`, no error is raised, and on scenario D the
assertion passes, producing the `Sorted` verdict. -/
theorem c1_counterexample :
    verifyPricesSortedAscending scenarioD = Verdict.sorted ∧
    parsePrice "abc".data = JNum.nan := by
  constructor <;> decide

/-- C1 (amended): for the price key each element goes through
`parseFloat` after the first `$` is removed; an invalid remainder yields
`NaN` rather than a `ParseError` — the comparator treats every `NaN`
comparison as a tie, the verifier can only return `Sorted` or `NotSorted`
(no error verdict exists), and scenario D verifies as `Sorted`. -/
theorem c1_amended :
    parsePrice "abc".data = JNum.nan ∧
    (∀ b, jle JNum.nan b = true ∧ jle b JNum.nan = true) ∧
    (∀ obs, verifyPricesSortedAscending obs = Verdict.sorted ∨
      ∃ i x y, verifyPricesSortedAscending obs = Verdict.notSorted i x y) ∧
    verifyPricesSortedAscending scenarioD = Verdict.sorted := by
  refine ⟨by decide, ?_, ?_, by decide⟩
  · intro b
    exact ⟨by cases b <;> rfl, by cases b <;> rfl⟩
  · intro obs
    cases h : verifyPricesSortedAscending obs with
    | sorted => exact Or.inl rfl
    | notSorted i x y => exact Or.inr ⟨i, x, y, rfl⟩

/-- C2: a `NotSorted` verdict carries the first index at which the
observed sequence differs from the expected sorted copy, together with
both values at that index; on scenario A the mismatch is at index 0 with
observed 10 (the parse of `"$10.00"`) against expected 5 (the parse of
`"$5.00"`). -/
theorem c2_notSorted_first_mismatch :
    (∀ (obs : List Str) (i : Nat) (x y : JNum),
      verifyPricesSortedAscending obs = Verdict.notSorted i x y →
        (obs.map parsePrice)[i]? = some x ∧
        (jsSortBy jle (obs.map parsePrice))[i]? = some y ∧ x ≠ y ∧
        ∀ j, j < i →
          (obs.map parsePrice)[j]? = (jsSortBy jle (obs.map parsePrice))[j]?) ∧
    (∀ (obs : List Str) (i : Nat) (x y : Str),
      verifyNamesSortedDescending obs = Verdict.notSorted i x y →
        obs[i]? = some x ∧ ((jsSortBy strLe obs).reverse)[i]? = some y ∧ x ≠ y ∧
        ∀ j, j < i → obs[j]? = ((jsSortBy strLe obs).reverse)[j]?) ∧
    verifyPricesSortedAscending scenarioA =
      Verdict.notSorted 0 (JNum.num (mkRat 10 1)) (JNum.num (mkRat 5 1)) ∧
    parsePrice "$10.00".data = JNum.num (mkRat 10 1) ∧
    parsePrice "$5.00".data = JNum.num (mkRat 5 1) := by
  refine ⟨?_, ?_, by decide, by decide, by decide⟩
  · intro obs i x y h
    exact verdictOf_notSorted _ _ i x y h
  · intro obs i x y h
    exact verdictOf_notSorted _ _ i x y h

/-- C2 witness: the mismatch property instantiated on scenario A. -/
theorem c2_witness :
    (scenarioA.map parsePrice)[0]? = some (JNum.num (mkRat 10 1)) ∧
    (jsSortBy jle (scenarioA.map parsePrice))[0]? = some (JNum.num (mkRat 5 1)) ∧
    JNum.num (mkRat 10 1) ≠ JNum.num (mkRat 5 1) ∧
    ∀ j, j < 0 →
      (scenarioA.map parsePrice)[j]? = (jsSortBy jle (scenarioA.map parsePrice))[j]? :=
  c2_notSorted_first_mismatch.1 scenarioA 0 _ _ (by decide)

/-- C3: sequences of length 0 or 1 verify as `Sorted` under every key and
direction — empty and single-element captures are valid, not errors. -/
theorem c3_short_sorted (obs : List Str) (h : obs.length ≤ 1) :
    verifyPricesSortedAscending obs = Verdict.sorted ∧
    verifyNamesSortedDescending obs = Verdict.sorted ∧
    ∀ dir, verifyPrices dir obs = Verdict.sorted ∧
      verifyNames dir obs = Verdict.sorted := by
  match obs, h with
  | [], _ =>
    refine ⟨by decide, by decide, fun dir => ?_⟩
    cases dir
    · exact ⟨by decide, by decide⟩
    · exact ⟨by decide, by decide⟩
  | [a], _ =>
    refine ⟨?_, ?_, fun dir => ?_⟩
    · show verdictOf [parsePrice a] (jsSortBy jle [parsePrice a]) = Verdict.sorted
      exact verdictOf_self [parsePrice a]
    · show verdictOf [a] (jsSortBy strLe [a]).reverse = Verdict.sorted
      exact verdictOf_self [a]
    · cases dir
      · constructor
        · show verdictOf [parsePrice a] (jsSortBy jle [parsePrice a]) = Verdict.sorted
          exact verdictOf_self [parsePrice a]
        · show verdictOf [a] (jsSortBy strLe [a]) = Verdict.sorted
          exact verdictOf_self [a]
      · constructor
        · show verdictOf [parsePrice a] (jsSortBy jle [parsePrice a]).reverse =
            Verdict.sorted
          exact verdictOf_self [parsePrice a]
        · show verdictOf [a] (jsSortBy strLe [a]).reverse = Verdict.sorted
          exact verdictOf_self [a]
  | a :: b :: t, h =>
    simp [List.length_cons] at h

/-- C3 witness: a singleton capture verifies as sorted everywhere. -/
theorem c3_witness :
    verifyPricesSortedAscending ["$7.99".data] = Verdict.sorted ∧
    verifyNamesSortedDescending ["$7.99".data] = Verdict.sorted ∧
    ∀ dir, verifyPrices dir ["$7.99".data] = Verdict.sorted ∧
      verifyNames dir ["$7.99".data] = Verdict.sorted :=
  c3_short_sorted ["$7.99".data] (by decide)

/-- C4: name comparison is the case-sensitive code-point lexicographic
order (the sort's "precedes or equal" is exactly equality-or-`lexLtSpec`,
with no case folding — witness `"Apple" < "apple"` and `"Zebra" <
"apple"`), descending means the reverse of that natural order (the
verifier accepts exactly the nonincreasing sequences), and scenario C
verifies as `Sorted`. -/
theorem c4_names_descending :
    (∀ a b : Str, strLe a b = true ↔ a = b ∨ lexLtSpec a b) ∧
    (∀ obs : List Str, verifyNamesSortedDescending obs = Verdict.sorted ↔
      obs.Pairwise (fun x y => strLe y x = true)) ∧
    strLt "Apple".data "apple".data = true ∧
    strLt "Zebra".data "apple".data = true ∧
    verifyNamesSortedDescending scenarioC = Verdict.sorted :=
  ⟨strLe_iff_lexLeSpec, verifyNamesSortedDescending_sorted_iff,
    by decide, by decide, by decide⟩

/-- C5: stability — a sequence whose equal-keyed elements stand in capture
order (that is, a weakly ordered sequence for the given SortSpec) always
verifies as `Sorted`; duplicates alone never produce `NotSorted`. -/
theorem c5_duplicates_stable :
    (∀ (obs : List Str) (vals : List ℚ), obs.map parsePrice = vals.map JNum.num →
      vals.Pairwise (· ≤ ·) → verifyPricesSortedAscending obs = Verdict.sorted) ∧
    (∀ obs : List Str, obs.Pairwise (fun x y => strLe y x = true) →
      verifyNamesSortedDescending obs = Verdict.sorted) := by
  constructor
  · exact verifyPrices_asc_sorted_of
  · intro obs h
    exact (verifyNamesSortedDescending_sorted_iff obs).mpr h

/-- C5 witness: duplicate prices and duplicate names in capture order. -/
theorem c5_witness :
    verifyPricesSortedAscending ["$5.00".data, "$5.00".data, "$6.00".data] =
      Verdict.sorted ∧
    verifyNamesSortedDescending ["B".data, "A".data, "A".data] = Verdict.sorted :=
  ⟨c5_duplicates_stable.1 ["$5.00".data, "$5.00".data, "$6.00".data]
      [mkRat 5 1, mkRat 5 1, mkRat 6 1] (by decide) (by decide),
    c5_duplicates_stable.2 ["B".data, "A".data, "A".data] (by decide)⟩

/-- C6: a sequence that is ascending-sorted under its key verifies as
`Sorted` against ascending, and its reversal verifies as `Sorted` against
descending — the two verdicts agree. -/
theorem c6_reverse_equiv :
    (∀ (obs : List Str) (vals : List ℚ), obs.map parsePrice = vals.map JNum.num →
      vals.Pairwise (· ≤ ·) →
      verifyPrices SortDir.ascending obs = Verdict.sorted ∧
      verifyPrices SortDir.descending obs.reverse = Verdict.sorted) ∧
    (∀ obs : List Str, obs.Pairwise (fun x y => strLe x y = true) →
      verifyNames SortDir.ascending obs = Verdict.sorted ∧
      verifyNames SortDir.descending obs.reverse = Verdict.sorted) := by
  constructor
  · intro obs vals hv h
    exact ⟨verifyPrices_asc_sorted_of obs vals hv h,
      verifyPrices_desc_reverse_sorted obs vals hv h⟩
  · intro obs h
    exact ⟨verifyNames_asc_sorted_of obs h, verifyNames_desc_reverse_sorted obs h⟩

/-- C6 witness: an ascending price pair and an ascending name pair, with
their reversals under descending. -/
theorem c6_witness :
    (verifyPrices SortDir.ascending ["$5.00".data, "$10.00".data] = Verdict.sorted ∧
      verifyPrices SortDir.descending (["$5.00".data, "$10.00".data]).reverse =
        Verdict.sorted) ∧
    (verifyNames SortDir.ascending ["Apple".data, "Zebra".data] = Verdict.sorted ∧
      verifyNames SortDir.descending (["Apple".data, "Zebra".data]).reverse =
        Verdict.sorted) :=
  ⟨c6_reverse_equiv.1 ["$5.00".data, "$10.00".data] [mkRat 5 1, mkRat 10 1]
      (by decide) (by decide),
    c6_reverse_equiv.2 ["Apple".data, "Zebra".data] (by decide)⟩

/-- C7: neither verifier mutates its input array while producing the
expected comparison sequence: the sorted copy lives at a distinct
reference, the input array's final contents equal its initial contents
(the parsed prices, respectively the captured names), and every
pre-existing array is untouched. -/
theorem c7_no_mutation (hp : Heap JNum) (hn : Heap Str) (obs : List Str) :
    ((verifyPricesRun hp obs).2.1 ≠ (verifyPricesRun hp obs).2.2.1 ∧
      hget (verifyPricesRun hp obs).1 (verifyPricesRun hp obs).2.1 =
        obs.map parsePrice ∧
      ∀ r, r ≠ (verifyPricesRun hp obs).2.1 → r ≠ (verifyPricesRun hp obs).2.2.1 →
        hget (verifyPricesRun hp obs).1 r = hget hp r) ∧
    ((verifyNamesRun hn obs).2.1 ≠ (verifyNamesRun hn obs).2.2.1 ∧
      hget (verifyNamesRun hn obs).1 (verifyNamesRun hn obs).2.1 = obs ∧
      ∀ r, r ≠ (verifyNamesRun hn obs).2.1 → r ≠ (verifyNamesRun hn obs).2.2.1 →
        hget (verifyNamesRun hn obs).1 r = hget hn r) := by
  rw [verifyPricesRun_eq, verifyNamesRun_eq]
  dsimp only
  exact ⟨⟨by omega, hget_append2_fst hp _ _,
      fun r h1 h2 => hget_append2_other hp _ _ r h1 h2⟩,
    ⟨by omega, hget_append2_fst hn _ _,
      fun r h1 h2 => hget_append2_other hn _ _ r h1 h2⟩⟩

/-- C7 witness: a concrete pre-existing array survives both runs. -/
theorem c7_witness :
    hget (verifyPricesRun [[JNum.nan]] ["$9.99".data]).1 0 =
      hget ([[JNum.nan]] : Heap JNum) 0 ∧
    hget (verifyNamesRun [] ["A".data]).1 5 = hget ([] : Heap Str) 5 :=
  ⟨(c7_no_mutation [[JNum.nan]] [] ["$9.99".data]).1.2.2 0 (by decide) (by decide),
    (c7_no_mutation [[JNum.nan]] [] ["A".data]).2.2.2 5 (by decide) (by decide)⟩

/-- C8: the verdict is a deterministic pure function of the captured
texts: it does not depend on the pre-existing store, so two invocations
with the same inputs — in particular one immediately after the other —
return the same verdict, which equals the pure verifier's. -/
theorem c8_deterministic (h1 h2 : Heap JNum) (g1 g2 : Heap Str) (obs : List Str) :
    (verifyPricesRun h1 obs).2.2.2 = (verifyPricesRun h2 obs).2.2.2 ∧
    (verifyPricesRun h1 obs).2.2.2 = verifyPricesSortedAscending obs ∧
    (verifyPricesRun (verifyPricesRun h1 obs).1 obs).2.2.2 =
      (verifyPricesRun h1 obs).2.2.2 ∧
    (verifyNamesRun g1 obs).2.2.2 = (verifyNamesRun g2 obs).2.2.2 ∧
    (verifyNamesRun g1 obs).2.2.2 = verifyNamesSortedDescending obs ∧
    (verifyNamesRun (verifyNamesRun g1 obs).1 obs).2.2.2 =
      (verifyNamesRun g1 obs).2.2.2 := by
  simp [verifyPricesRun_eq, verifyNamesRun_eq]

/-- C9: `replace("$", "")` removes the first `$` wherever it occurs (not
only a leading one) and `parseFloat` keeps the longest leading decimal
prefix of the remainder, so an element with trailing text such as
`"$5.00 USD"` denotes 5.00 and produces ordinary verdicts, never an
error. -/
theorem c9_dollar_and_longest_prefix :
    (∀ pre post : Str, '$' ∉ pre →
      replaceFirstDollar (pre ++ '$' :: post) = pre ++ post) ∧
    parsePrice "$5.00 USD".data = JNum.num (mkRat 5 1) ∧
    parsePrice "$5.00 USD".data = parsePrice "$5.00".data ∧
    parsePrice "5.0$0".data = JNum.num (mkRat 5 1) ∧
    verifyPricesSortedAscending ["$5.00 USD".data, "$6.00".data] = Verdict.sorted ∧
    verifyPricesSortedAscending ["$6.00".data, "$5.00 USD".data] =
      Verdict.notSorted 0 (JNum.num (mkRat 6 1)) (JNum.num (mkRat 5 1)) := by
  refine ⟨?_, by decide, by decide, by decide, by decide, by decide⟩
  intro pre post hp
  induction pre with
  | nil => simp [replaceFirstDollar]
  | cons c cs ih =>
    have hc : ¬ c = '$' := by
      intro hc
      subst hc
      exact hp (List.mem_cons_self _ _)
    have hcs : '$' ∉ cs := fun hm => hp (List.mem_cons_of_mem c hm)
    simp only [List.cons_append, replaceFirstDollar, if_neg hc]
    exact congrArg (List.cons c) (ih hcs)

/-- C9 witness: first-occurrence removal on a concrete split. -/
theorem c9_witness :
    replaceFirstDollar ("ab".data ++ '$' :: "cd".data) = "ab".data ++ "cd".data :=
  c9_dollar_and_longest_prefix.1 "ab".data "cd".data (by decide)

/-- C10: the price verdict depends only on the parsed numeric values:
sequences with element-wise equal parses (such as `"$5.0"` against
`"$5.00"`) receive the same verdict. -/
theorem c10_parse_invariance :
    (∀ o1 o2 : List Str, o1.map parsePrice = o2.map parsePrice →
      verifyPricesSortedAscending o1 = verifyPricesSortedAscending o2) ∧
    parsePrice "$5.0".data = parsePrice "$5.00".data ∧
    parsePrice "$5.0".data = JNum.num (mkRat 5 1) := by
  refine ⟨?_, by decide, by decide⟩
  intro o1 o2 h
  show verdictOf (o1.map parsePrice) (jsSortBy jle (o1.map parsePrice)) =
    verdictOf (o2.map parsePrice) (jsSortBy jle (o2.map parsePrice))
  rw [h]

/-- C10 witness: two spellings of the same prices get one verdict. -/
theorem c10_witness :
    verifyPricesSortedAscending ["$5.0".data, "$25.50".data] =
      verifyPricesSortedAscending ["$5.00".data, "$25.5".data] :=
  c10_parse_invariance.1 ["$5.0".data, "$25.50".data]
    ["$5.00".data, "$25.5".data] (by decide)

